import Mathlib

/-!
Verification of the expression-node core of the egui-snarl demo
(src/examples/demo.rs): the arithmetic AST and its evaluator, the
free-variable extractor, the token-level recursive-descent parser, the
connection legality check, and the port-rebinding pass of show_content.

Numeric payloads are f32 in the source; they are modelled as exact
rationals. Every numeric fact proved here involves only small integral
values, on which f32 arithmetic is exact, and no claim below depends on
rounding behaviour.
-/

namespace EguiSnarlDemo

/-- Unary operators of the demo expression language (enum UnOp in demo.rs). -/
inductive UnOp where
  | pos
  | neg
deriving DecidableEq

/-- Binary operators of the demo expression language (enum BinOp in demo.rs). -/
inductive BinOp where
  | add
  | sub
  | mul
  | div
deriving DecidableEq

/-- The demo AST (enum Expr in demo.rs). -/
inductive Expr where
  | Var : String → Expr
  | Val : ℚ → Expr
  | UnOp : UnOp → Expr → Expr
  | BinOp : Expr → BinOp → Expr → Expr
deriving DecidableEq

/-- Embedding of Iterator::position as used by demo.rs: the index of the
first element satisfying the predicate, none when there is no such element. -/
def position (p : String → Bool) : List String → Option Nat
  | [] => none
  | b :: rest => if p b then some 0 else (position p rest).map (· + 1)

/-- Embedding of Expr::eval in demo.rs. The source panics when the unwrap of
a binding lookup fails or when the args index is out of range; a panic is
modelled as none, a normal return as some. -/
def Expr.eval : Expr → List String → List ℚ → Option ℚ
  | .Var name, bindings, args =>
      match position (fun binding => binding = name) bindings with
      | none => none
      | some i => args.get? i
  | .Val value, _, _ => some value
  | .UnOp .pos e, bindings, args => e.eval bindings args
  | .UnOp .neg e, bindings, args => (e.eval bindings args).map (fun v => -v)
  | .BinOp lhs op rhs, bindings, args =>
      match lhs.eval bindings args, rhs.eval bindings args with
      | some a, some b =>
          match op with
          | .add => some (a + b)
          | .sub => some (a - b)
          | .mul => some (a * b)
          | .div => some (a / b)
      | _, _ => none

/-- Embedding of Expr::extend_bindings in demo.rs; the mutable Vec argument
is modelled by state passing. -/
def Expr.extend_bindings : Expr → List String → List String
  | .Var name, bindings => if name ∈ bindings then bindings else bindings ++ [name]
  | .Val _, bindings => bindings
  | .UnOp _ e, bindings => e.extend_bindings bindings
  | .BinOp lhs _ rhs, bindings => rhs.extend_bindings (lhs.extend_bindings bindings)

/-- The depth-first, left-to-right sequence of variable occurrences of an AST
(duplicates kept), used to state what extend_bindings computes. -/
def Expr.varsDFS : Expr → List String
  | .Var name => [name]
  | .Val _ => []
  | .UnOp _ e => e.varsDFS
  | .BinOp lhs _ rhs => lhs.varsDFS ++ rhs.varsDFS

/-- First-occurrence deduplication of a list of names, the order the spec
describes in section 4.2. -/
def dedupFirst (l : List String) : List String :=
  l.foldl (fun acc name => if name ∈ acc then acc else acc ++ [name]) []

/-- One step of first-occurrence accumulation. -/
def bindStep (acc : List String) (name : String) : List String :=
  if name ∈ acc then acc else acc ++ [name]

/-- A token of the expression text, as the syn token stream presents it to
the parser in demo.rs: parenthesized groups are nested token lists, float
and integer literals carry their numeric value, identifiers their name, and
the four operator punctuation tokens stand alone. The lexer itself is the
external syn crate; the parser is verified from this token level down. -/
inductive Tok where
  | group : List Tok → Tok
  | litFloat : ℚ → Tok
  | litInt : ℚ → Tok
  | ident : String → Tok
  | plus : Tok
  | minus : Tok
  | star : Tok
  | slash : Tok

/-- Embedding of the Parse impl for BinOp in demo.rs: one operator token is
recognized, anything else is a syntax error. -/
def opOfTok : Tok → Option BinOp
  | .plus => some .add
  | .minus => some .sub
  | .star => some .mul
  | .slash => some .div
  | _ => none

mutual

/-- Embedding of the Parse impl for Expr in demo.rs: parse a primary
(parenthesized group, float literal, int literal, identifier, or a unary
operator handed to parse_with_unop), then hand it to the continuation that
the source inlines in each branch: return it if the input is exhausted,
otherwise a binary operator token must follow and parse_binop continues. -/
def Expr.parse : List Tok → Option Expr
  | [] => none
  | .group content :: rest =>
      (Expr.parse content).bind (fun e => Expr.parse_cont e rest)
  | .litFloat v :: rest => Expr.parse_cont (Expr.Val v) rest
  | .litInt v :: rest => Expr.parse_cont (Expr.Val v) rest
  | .ident s :: rest => Expr.parse_cont (Expr.Var s) rest
  | .plus :: rest => Expr.parse_with_unop .pos rest
  | .minus :: rest => Expr.parse_with_unop .neg rest
  | .star :: _ => none
  | .slash :: _ => none
termination_by ts => sizeOf ts

/-- The continuation the source writes inline after each parsed primary of
Expr::parse and Expr::parse_with_unop: return the primary when the input is
exhausted, otherwise require a binary operator and continue in parse_binop. -/
def Expr.parse_cont (e : Expr) : List Tok → Option Expr
  | [] => some e
  | t :: rest2 => (opOfTok t).bind (fun op => Expr.parse_binop e op rest2)
termination_by ts => sizeOf ts

/-- Embedding of Expr::parse_with_unop in demo.rs: parse the primary the
unary operator applies to, wrapping a parenthesized group whole, and
continue as in Expr::parse. -/
def Expr.parse_with_unop (op : EguiSnarlDemo.UnOp) : List Tok → Option Expr
  | .group content :: rest =>
      (Expr.parse content).bind
        (fun inner => Expr.parse_cont (Expr.UnOp op inner) rest)
  | .litFloat v :: rest => Expr.parse_cont (Expr.UnOp op (Expr.Val v)) rest
  | .litInt v :: rest => Expr.parse_cont (Expr.UnOp op (Expr.Val v)) rest
  | .ident s :: rest => Expr.parse_cont (Expr.UnOp op (Expr.Var s)) rest
  | _ => none
termination_by ts => sizeOf ts

/-- Embedding of Expr::parse_binop in demo.rs: parse the right operand as a
primary, then continue with the precedence step. -/
def Expr.parse_binop (lhs : Expr) (op : EguiSnarlDemo.BinOp) :
    List Tok → Option Expr
  | .group content :: rest =>
      (Expr.parse content).bind
        (fun rhs => Expr.parse_binop_cont lhs op rhs rest)
  | .litFloat v :: rest => Expr.parse_binop_cont lhs op (Expr.Val v) rest
  | .litInt v :: rest => Expr.parse_binop_cont lhs op (Expr.Val v) rest
  | .ident s :: rest => Expr.parse_binop_cont lhs op (Expr.Var s) rest
  | _ => none
termination_by ts => sizeOf ts

/-- The tail of Expr::parse_binop after the right operand has been read:
return the binary node on exhausted input; otherwise read the next operator,
and a mul or div following an add or sub is absorbed into the right-hand
side before the enclosing node is closed, while every other pairing folds
the left subtree and left-associates. -/
def Expr.parse_binop_cont (lhs : Expr) (op : EguiSnarlDemo.BinOp)
    (rhs : Expr) : List Tok → Option Expr
  | [] => some (Expr.BinOp lhs op rhs)
  | t :: rest2 =>
      (opOfTok t).bind (fun next_op =>
        match op, next_op with
        | .add, .mul | .add, .div | .sub, .mul | .sub, .div =>
            (Expr.parse_binop rhs next_op rest2).map
              (fun rhs2 => Expr.BinOp lhs op rhs2)
        | _, _ => Expr.parse_binop (Expr.BinOp lhs op rhs) next_op rest2)
termination_by ts => sizeOf ts

end

/-- The expression one token denotes in right-operand position of
Expr::parse_binop: a parenthesized group is the full parse of its content,
a literal or identifier is a leaf, an operator token is a syntax error. -/
def parsePrimaryTok : Tok → Option Expr
  | .group content => Expr.parse content
  | .litFloat v => some (Expr.Val v)
  | .litInt v => some (Expr.Val v)
  | .ident s => some (Expr.Var s)
  | _ => none

/-- The token stream the syn lexer produces for the string "1 + 2 * 3". -/
def toksPrec1 : List Tok := [.litInt 1, .plus, .litInt 2, .star, .litInt 3]

/-- The token stream the syn lexer produces for the string "(1 + 2) * 3". -/
def toksPrec2 : List Tok :=
  [.group [.litInt 1, .plus, .litInt 2], .star, .litInt 3]

/-- The token stream the syn lexer produces for the string "1 - 2 - 3". -/
def toksPrec3 : List Tok := [.litInt 1, .minus, .litInt 2, .minus, .litInt 3]

/-- Parse a complete token stream and evaluate the resulting closed
expression with empty bindings and values. -/
def parseEval (ts : List Tok) : Option ℚ :=
  (Expr.parse ts).bind (fun e => e.eval [] [])

/-- Node kinds of the demo graph, the variants of enum DemoNode in demo.rs;
connection legality depends only on the kind, never on the payload. -/
inductive NodeKind where
  | Sink
  | Integer
  | String
  | Show
  | Expr
deriving DecidableEq

/-- Identity of an input pin: owning node index and input slot index. -/
structure InPinId where
  node : Nat
  input : Nat
deriving DecidableEq

/-- Identity of an output pin: owning node index and output slot index. -/
structure OutPinId where
  node : Nat
  output : Nat
deriving DecidableEq

/-- A mutation command pushed into the Effects queue by the viewer code in
demo.rs: disconnect and connect carry the remote output pin and the input
pin, dropInputs is the drop_inputs effect on an input pin. -/
inductive Effect where
  | dropInputs : InPinId → Effect
  | disconnect : OutPinId → InPinId → Effect
  | connect : OutPinId → InPinId → Effect
deriving DecidableEq

/-- Outcome of DemoViewer::connect: Ok, Err(Forbidden), or one of the
branches the source marks unreachable, which panic when hit. -/
inductive ConnectStatus where
  | ok
  | forbidden
  | unreachable
deriving DecidableEq

/-- The validation match at the top of DemoViewer::connect in demo.rs, arm
for arm in source order; earlier arms shadow later ones exactly as in Rust. -/
def connectCheck : NodeKind → NodeKind → ConnectStatus
  | .Sink, _ => .unreachable
  | _, .Integer => .unreachable
  | _, .String => .unreachable
  | .Integer, .Show => .forbidden
  | .Show, .Show => .forbidden
  | _, .Sink => .ok
  | .String, .Show => .ok
  | .Expr, .Expr => .ok
  | .Integer, .Expr => .ok
  | .String, .Expr => .forbidden
  | .Show, .Expr => .forbidden
  | .Expr, .Show => .forbidden

/-- Embedding of DemoViewer::connect in demo.rs: validate the kinds; on Ok,
push a disconnect for every existing remote of the destination pin and then
the single connect of the new source; on Err and on the unreachable
branches nothing is pushed. -/
def DemoViewer.connect (fromKind toKind : NodeKind) (fromId : OutPinId)
    (toId : InPinId) (remotes : List OutPinId) :
    ConnectStatus × List Effect :=
  match connectCheck fromKind toKind with
  | .ok => (.ok, remotes.map (fun r => Effect.disconnect r toId) ++
      [Effect.connect fromId toId])
  | s => (s, [])

/-- Modelled from the spec: replaying a section 6 mutation command against
the incoming-connection list of one input pin of the persisted graph. A
disconnect addressed to this pin removes that remote, a connect addressed
to this pin appends its remote, dropping the inputs of this pin clears it,
and a command addressing any other pin leaves this pin unchanged. -/
def applyCmd (pin : InPinId) (cur : List OutPinId) : Effect → List OutPinId
  | .disconnect r p => if p = pin then cur.filter (fun x => x ≠ r) else cur
  | .connect r p => if p = pin then cur ++ [r] else cur
  | .dropInputs p => if p = pin then [] else cur

/-- Modelled from the spec: replaying a buffered command list in emission
order. -/
def applyCmds (pin : InPinId) (cur : List OutPinId)
    (cmds : List Effect) : List OutPinId :=
  cmds.foldl (applyCmd pin) cur

/-- The per-slot body of the rebinding loop of DemoViewer::show_content in
demo.rs: for the old slot idx carrying name, look the name up in the new
bindings by position; when absent, drop the inputs of the old pin; when
present at a different index, for each remote push a disconnect from the
old pin and a connect of the same remote to the new pin; otherwise push
nothing. -/
def rebindSlot (nodeIdx idx : Nat) (name : String)
    (newBindings : List String) (remotes : List OutPinId) : List Effect :=
  match position (fun newName => newName = name) newBindings with
  | none => [Effect.dropInputs ⟨nodeIdx, idx⟩]
  | some newIdx =>
      if newIdx ≠ idx then
        remotes.flatMap (fun r =>
          [Effect.disconnect r ⟨nodeIdx, idx⟩,
            Effect.connect r ⟨nodeIdx, newIdx⟩])
      else []

/-- The rebinding loop of DemoViewer::show_content: iterate over the old
bindings with their slot indices, remotes giving the incoming remote pins
of each old input slot of this node. -/
def rebindPass (nodeIdx : Nat) (oldBindings newBindings : List String)
    (remotes : Nat → List OutPinId) : List Effect :=
  oldBindings.enum.flatMap (fun p =>
    rebindSlot nodeIdx p.1 p.2 newBindings (remotes p.1))

/-- Modelled from the spec: the drop_inputs effect of the library stands for
disconnecting every existing incoming connection of the pin, if any; plain
disconnect and connect commands pass through unchanged. -/
def interpEffect (remotes : Nat → List OutPinId) : Effect → List Effect
  | .dropInputs p => (remotes p.input).map (fun r => Effect.disconnect r p)
  | e => [e]

/-- One insertion into the name-to-value map; a later insertion of the same
key overwrites an earlier one, as HashMap insertion does. -/
def mapInsert (m : String → Option ℚ) (kv : String × ℚ) :
    String → Option ℚ :=
  fun k => if k = kv.1 then some kv.2 else m k

/-- Embedding of the HashMap that show_content collects from zipping the old
bindings with the old values: sequential insertion into the empty map. -/
def toMap (l : List (String × ℚ)) : String → Option ℚ :=
  l.foldl mapInsert (fun _ => none)

/-- Embedding of the new-values rebuild of show_content: for each new
binding name, the mapped old value, defaulting to 0. -/
def rebuildValues (oldBindings : List String) (oldValues : List ℚ)
    (newBindings : List String) : List ℚ :=
  newBindings.map (fun name =>
    (toMap (oldBindings.zip oldValues) name).getD 0)

/-- First-occurrence association-list lookup, used to describe what toMap
computes when the keys are distinct. -/
def assocFind : List (String × ℚ) → String → Option ℚ
  | [], _ => none
  | kv :: rest, k => if kv.1 = k then some kv.2 else assocFind rest k

/-- The raw state an ExprNode owns in demo.rs: text, binding list, parallel
values, parsed AST. -/
structure ExprNodeState where
  text : String
  bindings : List String
  values : List ℚ
  expr : Expr
deriving DecidableEq

/-- Embedding of the ExprNode branch of DemoViewer::show_content in demo.rs
for one edit cycle. The text edit has already replaced the node text with
newText; newToks is the tokenization of newText by the external syn lexer
(none when lexing fails, so that parsing fails too). On a successful parse
the AST is stored, the old name-to-value map is built, the new bindings are
extracted, the rebinding effects for this node are pushed, and the new
values are rebuilt; on a failed parse nothing but the text changes and no
effect is pushed. -/
def showContentExpr (nodeIdx : Nat) (st : ExprNodeState) (newText : String)
    (newToks : Option (List Tok)) (remotes : Nat → List OutPinId) :
    ExprNodeState × List Effect :=
  match newToks.bind Expr.parse with
  | some expr =>
      let new_bindings := expr.extend_bindings []
      let effects := rebindPass nodeIdx st.bindings new_bindings remotes
      let new_values := rebuildValues st.bindings st.values new_bindings
      ({ st with
          text := newText
          expr := expr
          bindings := new_bindings
          values := new_values }, effects)
  | none => ({ st with text := newText }, [])

theorem dedupFirst_eq_foldl (l : List String) :
    dedupFirst l = l.foldl bindStep [] := rfl

theorem extend_bindings_eq_foldl (e : Expr) (b : List String) :
    e.extend_bindings b = e.varsDFS.foldl bindStep b := by
  induction e generalizing b with
  | Var name => simp [Expr.extend_bindings, Expr.varsDFS, bindStep]
  | Val v => simp [Expr.extend_bindings, Expr.varsDFS]
  | UnOp op e ih => simp [Expr.extend_bindings, Expr.varsDFS, ih]
  | BinOp lhs op rhs ihl ihr =>
      simp [Expr.extend_bindings, Expr.varsDFS, ihl, ihr, List.foldl_append]

theorem foldl_bindStep_nodup (l : List String) (acc : List String)
    (h : acc.Nodup) : (l.foldl bindStep acc).Nodup := by
  induction l generalizing acc with
  | nil => simpa using h
  | cons x rest ih =>
      refine ih (bindStep acc x) ?_
      unfold bindStep
      by_cases hx : x ∈ acc
      · simpa [hx] using h
      · simp [hx, List.nodup_append, h]

theorem mem_bindStep (acc : List String) (x n : String) :
    n ∈ bindStep acc x ↔ n ∈ acc ∨ n = x := by
  unfold bindStep
  by_cases hx : x ∈ acc
  · simp only [hx, if_true]
    exact ⟨Or.inl, fun h => h.elim id (fun e => e ▸ hx)⟩
  · simp [hx]

theorem mem_foldl_bindStep (l : List String) (acc : List String) (n : String) :
    n ∈ l.foldl bindStep acc ↔ n ∈ acc ∨ n ∈ l := by
  induction l generalizing acc with
  | nil => simp
  | cons x rest ih =>
      rw [List.foldl_cons, ih, mem_bindStep, or_assoc]
      simp [List.mem_cons]

theorem position_eq_none (p : String → Bool) (l : List String) :
    position p l = none ↔ ∀ x ∈ l, ¬ p x := by
  induction l with
  | nil => simp [position]
  | cons b rest ih =>
      by_cases hb : p b
      · simp [position, hb]
      · simp [position, hb, ih]

theorem position_lt_length (p : String → Bool) (l : List String) (i : Nat)
    (h : position p l = some i) : i < l.length := by
  induction l generalizing i with
  | nil => simp [position] at h
  | cons b rest ih =>
      by_cases hb : p b
      · simp [position, hb] at h
        simp [← h]
      · simp [position, hb] at h
        obtain ⟨j, hj, rfl⟩ := h
        have := ih j hj
        simp
        omega

theorem position_sound (p : String → Bool) (l : List String) (i : Nat)
    (h : position p l = some i) :
    (∃ x, l.get? i = some x ∧ p x) ∧
      ∀ k, k < i → ∀ x, l.get? k = some x → ¬ p x := by
  induction l generalizing i with
  | nil => simp [position] at h
  | cons b rest ih =>
      by_cases hb : p b
      · simp [position, hb] at h
        subst h
        exact ⟨⟨b, rfl, hb⟩, fun k hk => absurd hk (by omega)⟩
      · simp [position, hb] at h
        obtain ⟨j, hj, rfl⟩ := h
        obtain ⟨⟨x, hx, hpx⟩, hmin⟩ := ih j hj
        refine ⟨⟨x, by simpa using hx, hpx⟩, ?_⟩
        intro k hk y hy hpy
        cases k with
        | zero =>
            simp at hy
            subst hy
            exact hb hpy
        | succ k2 =>
            exact hmin k2 (by omega) y (by simpa using hy) hpy

theorem position_complete (p : String → Bool) (l : List String) : ∀ (i : Nat),
    (∃ x, l.get? i = some x ∧ p x) →
    (∀ k, k < i → ∀ x, l.get? k = some x → ¬ p x) →
    position p l = some i := by
  induction l with
  | nil =>
      intro i hget hmin
      obtain ⟨x, hx, -⟩ := hget
      simp at hx
  | cons b rest ih =>
      intro i hget hmin
      by_cases hb : p b
      · cases i with
        | zero => simp [position, hb]
        | succ j => exact absurd hb (hmin 0 (Nat.succ_pos j) b rfl)
      · cases i with
        | zero =>
            obtain ⟨x, hx, hpx⟩ := hget
            simp at hx
            subst hx
            exact absurd hpx hb
        | succ j =>
            obtain ⟨x, hx, hpx⟩ := hget
            have hrest : position p rest = some j :=
              ih j ⟨x, by simpa using hx, hpx⟩
                (fun k hk y hy hpy => hmin (k + 1) (by omega) y (by simpa using hy) hpy)
            simp [position, hb, hrest]

theorem position_iff (p : String → Bool) (l : List String) (i : Nat) :
    position p l = some i ↔
      ((∃ x, l.get? i = some x ∧ p x) ∧
        ∀ k, k < i → ∀ x, l.get? k = some x → ¬ p x) :=
  ⟨position_sound p l i, fun h => position_complete p l i h.1 h.2⟩

theorem position_of_mem (n : String) (l : List String) (h : n ∈ l) :
    ∃ i, position (fun x => x = n) l = some i := by
  cases hp : position (fun x => x = n) l with
  | none =>
      exfalso
      have := (position_eq_none _ _).mp hp n h
      simp at this
  | some i => exact ⟨i, rfl⟩

theorem position_get_self (l : List String) (hnd : l.Nodup) (i : Nat)
    (hi : i < l.length) :
    position (fun x => x = l.get ⟨i, hi⟩) l = some i := by
  rw [position_iff]
  constructor
  · exact ⟨l.get ⟨i, hi⟩, by rw [List.get?_eq_get hi], by simp⟩
  · intro k hk y hy hpy
    simp only [decide_eq_true_eq] at hpy
    have hkl : k < l.length := by omega
    rw [List.get?_eq_get hkl] at hy
    have hget : l.get ⟨k, hkl⟩ = l.get ⟨i, hi⟩ := by
      have := Option.some.inj hy
      rw [this, hpy]
    have hki := (List.Nodup.get_inj_iff hnd).mp hget
    have : k = i := congrArg Fin.val hki
    omega

/-- Claim C4: extend_bindings returns the variable names of the AST in
first-occurrence order of the depth-first left-to-right traversal with
duplicates elided, hence a duplicate-free list containing exactly the
variables occurring in the AST; parsing the token stream of "b + a * b"
and extracting its bindings yields the binding list ["b", "a"]. -/
theorem extend_bindings_c4 :
    (∀ e : Expr, (e.extend_bindings []).Nodup) ∧
    (∀ (e : Expr) (n : String), n ∈ e.extend_bindings [] ↔ n ∈ e.varsDFS) ∧
    (∀ e : Expr, e.extend_bindings [] = dedupFirst e.varsDFS) ∧
    (Expr.parse [.ident "b", .plus, .ident "a", .star, .ident "b"]).map
      (fun e => e.extend_bindings []) = some ["b", "a"] := by
  refine ⟨?_, ?_, ?_, ?_⟩
  · intro e
    rw [extend_bindings_eq_foldl]
    exact foldl_bindStep_nodup _ [] List.nodup_nil
  · intro e n
    rw [extend_bindings_eq_foldl, mem_foldl_bindStep]
    simp
  · intro e
    rw [extend_bindings_eq_foldl, dedupFirst_eq_foldl]
  · rw [show Expr.parse [.ident "b", .plus, .ident "a", .star, .ident "b"] =
        some (Expr.BinOp (.Var "b") .add
          (.BinOp (.Var "a") .mul (.Var "b"))) by
      simp [Expr.parse, Expr.parse_cont, Expr.parse_binop,
        Expr.parse_binop_cont, opOfTok]]
    rw [Option.map_some']
    decide

/-- Claim C9: whenever every variable of the AST occurs in the binding list
and the values array is at least as long as the binding list, eval reaches no
error branch and returns a value, a Variable resolving by the linear lookup
of its name and yielding the value at the found index; and whenever some
variable of an AST is absent from the binding list, eval is fatal, modelled
as returning none. -/
theorem eval_c9 (e : Expr) (bindings : List String) (args : List ℚ)
    (hvars : ∀ n ∈ e.varsDFS, n ∈ bindings)
    (hlen : bindings.length ≤ args.length) :
    (∃ v, e.eval bindings args = some v) ∧
    (∀ name i, position (fun b => b = name) bindings = some i →
        (Expr.Var name).eval bindings args = args.get? i) ∧
    (∀ (e2 : Expr) (n : String), n ∈ e2.varsDFS → n ∉ bindings →
        e2.eval bindings args = none) := by
  refine ⟨?_, ?_, ?_⟩
  · induction e with
    | Var name =>
        have hmem : name ∈ bindings := hvars name (by simp [Expr.varsDFS])
        obtain ⟨i, hi⟩ := position_of_mem name bindings hmem
        have hlt : i < args.length :=
          lt_of_lt_of_le (position_lt_length _ _ _ hi) hlen
        refine ⟨args.get ⟨i, hlt⟩, ?_⟩
        simp [Expr.eval, hi, List.get?_eq_get hlt]
    | Val v => exact ⟨v, rfl⟩
    | UnOp op e ih =>
        obtain ⟨v, hv⟩ := ih (fun n hn => hvars n (by simpa [Expr.varsDFS] using hn))
        cases op with
        | pos => exact ⟨v, by simpa [Expr.eval] using hv⟩
        | neg => exact ⟨-v, by simp [Expr.eval, hv]⟩
    | BinOp lhs op rhs ihl ihr =>
        obtain ⟨a, ha⟩ := ihl (fun n hn => hvars n (by simp [Expr.varsDFS, hn]))
        obtain ⟨b, hb⟩ := ihr (fun n hn => hvars n (by simp [Expr.varsDFS, hn]))
        cases op with
        | add => exact ⟨a + b, by simp [Expr.eval, ha, hb]⟩
        | sub => exact ⟨a - b, by simp [Expr.eval, ha, hb]⟩
        | mul => exact ⟨a * b, by simp [Expr.eval, ha, hb]⟩
        | div => exact ⟨a / b, by simp [Expr.eval, ha, hb]⟩
  · intro name i hi
    simp [Expr.eval, hi]
  · intro e2
    induction e2 with
    | Var name =>
        intro n hn hnb
        simp only [Expr.varsDFS, List.mem_singleton] at hn
        subst hn
        have : position (fun b => b = n) bindings = none := by
          rw [position_eq_none]
          intro x hx
          simp only [decide_eq_true_eq]
          intro hxe
          exact hnb (hxe ▸ hx)
        simp [Expr.eval, this]
    | Val v => intro n hn; simp [Expr.varsDFS] at hn
    | UnOp op e ih =>
        intro n hn hnb
        have he := ih n (by simpa [Expr.varsDFS] using hn) hnb
        cases op with
        | pos => simpa [Expr.eval] using he
        | neg => simp [Expr.eval, he]
    | BinOp lhs op rhs ihl ihr =>
        intro n hn hnb
        simp only [Expr.varsDFS, List.mem_append] at hn
        rcases hn with hn | hn
        · have := ihl n hn hnb
          simp [Expr.eval, this]
        · have := ihr n hn hnb
          cases hl : Expr.eval lhs bindings args with
          | none => simp [Expr.eval, hl]
          | some a => simp [Expr.eval, hl, this]

/-- Witness for eval_c9 at the AST of "x + 1" with bindings ["x"] and
values [2]. -/
theorem eval_c9_witness :
    (∃ v, (Expr.BinOp (.Var "x") .add (.Val 1)).eval ["x"] [2] = some v) ∧
    (∀ name i, position (fun b => b = name) ["x"] = some i →
        (Expr.Var name).eval ["x"] [2] = [(2 : ℚ)].get? i) ∧
    (∀ (e2 : Expr) (n : String), n ∈ e2.varsDFS → n ∉ ["x"] →
        e2.eval ["x"] [2] = none) :=
  eval_c9 (Expr.BinOp (.Var "x") .add (.Val 1)) ["x"] [2]
    (by intro n hn; simpa [Expr.varsDFS] using hn) (by simp)

theorem parse_binop_cont_rule (lhs rhs : Expr) (op next_op : BinOp)
    (tok : Tok) (rest : List Tok) (hop : opOfTok tok = some next_op) :
    Expr.parse_binop_cont lhs op rhs (tok :: rest) =
      if (op = .add ∨ op = .sub) ∧ (next_op = .mul ∨ next_op = .div) then
        (Expr.parse_binop rhs next_op rest).map (fun r => Expr.BinOp lhs op r)
      else
        Expr.parse_binop (Expr.BinOp lhs op rhs) next_op rest := by
  cases op <;> cases next_op <;>
    simp [Expr.parse_binop_cont, hop]

theorem parse_binop_step (lhs rhs : Expr) (op : BinOp) (t : Tok)
    (rest : List Tok) (hprim : parsePrimaryTok t = some rhs) :
    Expr.parse_binop lhs op (t :: rest) =
      Expr.parse_binop_cont lhs op rhs rest := by
  cases t with
  | group content =>
      simp only [parsePrimaryTok] at hprim
      simp [Expr.parse_binop, hprim]
  | litFloat v =>
      simp only [parsePrimaryTok, Option.some.injEq] at hprim
      subst hprim
      simp [Expr.parse_binop]
  | litInt v =>
      simp only [parsePrimaryTok, Option.some.injEq] at hprim
      subst hprim
      simp [Expr.parse_binop]
  | ident s =>
      simp only [parsePrimaryTok, Option.some.injEq] at hprim
      subst hprim
      simp [Expr.parse_binop]
  | plus => simp [parsePrimaryTok] at hprim
  | minus => simp [parsePrimaryTok] at hprim
  | star => simp [parsePrimaryTok] at hprim
  | slash => simp [parsePrimaryTok] at hprim

/-- Claim C2: the parser implements the two-tier arithmetic precedence with
left associativity: once a right operand of a just-parsed operator has been
read and another operator follows, a mul or div after an add or sub is
absorbed into the right-hand side before the enclosing node is closed, and
any other operator pairing folds the already-built left subtree and
left-associates; parsing then evaluating "1 + 2 * 3" yields 7, "(1 + 2) * 3"
yields 9, and "1 - 2 - 3" yields -4. -/
theorem parse_binop_c2 (lhs rhs : Expr) (op next_op : BinOp) (t tok : Tok)
    (rest : List Tok)
    (hprim : parsePrimaryTok t = some rhs)
    (hop : opOfTok tok = some next_op) :
    (Expr.parse_binop lhs op (t :: tok :: rest) =
      if (op = .add ∨ op = .sub) ∧ (next_op = .mul ∨ next_op = .div) then
        (Expr.parse_binop rhs next_op rest).map (fun r => Expr.BinOp lhs op r)
      else
        Expr.parse_binop (Expr.BinOp lhs op rhs) next_op rest) ∧
    parseEval toksPrec1 = some 7 ∧
    parseEval toksPrec2 = some 9 ∧
    parseEval toksPrec3 = some (-4) := by
  refine ⟨?_, ?_, ?_, ?_⟩
  · rw [parse_binop_step lhs rhs op t (tok :: rest) hprim]
    exact parse_binop_cont_rule lhs rhs op next_op tok rest hop
  · norm_num [parseEval, toksPrec1, Expr.parse, Expr.parse_cont,
      Expr.parse_binop, Expr.parse_binop_cont, opOfTok, Expr.eval]
  · norm_num [parseEval, toksPrec2, Expr.parse, Expr.parse_cont,
      Expr.parse_binop, Expr.parse_binop_cont, opOfTok, Expr.eval]
  · norm_num [parseEval, toksPrec3, Expr.parse, Expr.parse_cont,
      Expr.parse_binop, Expr.parse_binop_cont, opOfTok, Expr.eval]

/-- Witness for parse_binop_c2 at lhs 1, op add, right operand token 2,
following operator mul, remainder the single token 3, that is, at the
suffix of "1 + 2 * 3". -/
theorem parse_binop_c2_witness :
    (Expr.parse_binop (Expr.Val 1) .add
        (Tok.litInt 2 :: Tok.star :: [Tok.litInt 3]) =
      if ((BinOp.add = .add ∨ BinOp.add = .sub) ∧
          (BinOp.mul = .mul ∨ BinOp.mul = .div)) then
        (Expr.parse_binop (Expr.Val 2) .mul [Tok.litInt 3]).map
          (fun r => Expr.BinOp (Expr.Val 1) .add r)
      else
        Expr.parse_binop (Expr.BinOp (Expr.Val 1) .add (Expr.Val 2)) .mul
          [Tok.litInt 3]) ∧
    parseEval toksPrec1 = some 7 ∧
    parseEval toksPrec2 = some 9 ∧
    parseEval toksPrec3 = some (-4) :=
  parse_binop_c2 (Expr.Val 1) (Expr.Val 2) .add .mul (Tok.litInt 2) Tok.star
    [Tok.litInt 3] rfl rfl

/-- Claim C3 is false as stated on the pairs without ports: a connect with
an IntegerSource destination does not fail with IllegalConnection, it runs
into a branch the source marks unreachable, a panic, because IntegerSource
has no input pins at all. -/
theorem connect_c3_counterexample :
    (DemoViewer.connect .Integer .Integer ⟨0, 0⟩ ⟨1, 0⟩ []).1 =
        ConnectStatus.unreachable ∧
    ConnectStatus.unreachable ≠ ConnectStatus.forbidden ∧
    ConnectStatus.unreachable ≠ ConnectStatus.ok := by
  exact ⟨rfl, by decide, by decide⟩

/-- Claim C3 amended: among the pairs whose source kind has an output port
(source not Sink) and whose destination kind has input ports (destination
neither IntegerSource nor StringSource), connect fails with
IllegalConnection exactly for the five incompatible pairs, IntegerSource or
ImageShow or ExpressionNode into ImageShow and StringSource or ImageShow
into ExpressionNode, and succeeds otherwise; the remaining pairs hit
unreachable branches (panics) rather than returning IllegalConnection; and
every outcome other than Ok emits no command. -/
theorem connect_c3 (fromKind toKind : NodeKind) (fromId : OutPinId)
    (toId : InPinId) (remotes : List OutPinId) :
    ((DemoViewer.connect fromKind toKind fromId toId remotes).1 =
        ConnectStatus.forbidden ↔
      (fromKind, toKind) ∈ ([(.Integer, .Show), (.Show, .Show),
        (.String, .Expr), (.Show, .Expr), (.Expr, .Show)] :
        List (NodeKind × NodeKind))) ∧
    ((DemoViewer.connect fromKind toKind fromId toId remotes).1 =
        ConnectStatus.unreachable ↔
      (fromKind = .Sink ∨ toKind = .Integer ∨ toKind = .String)) ∧
    ((DemoViewer.connect fromKind toKind fromId toId remotes).1 =
        ConnectStatus.ok ∨
      (DemoViewer.connect fromKind toKind fromId toId remotes).2 = []) := by
  cases fromKind <;> cases toKind <;>
    simp [DemoViewer.connect, connectCheck]

theorem applyCmds_disconnect_all (pin : InPinId) (l : List OutPinId) :
    ∀ cur : List OutPinId, (∀ x ∈ cur, x ∈ l) →
      applyCmds pin cur (l.map (fun r => Effect.disconnect r pin)) = [] := by
  induction l with
  | nil =>
      intro cur hsub
      have : cur = [] := List.eq_nil_iff_forall_not_mem.mpr
        (fun x hx => by simpa using hsub x hx)
      simp [this, applyCmds]
  | cons r t ih =>
      intro cur hsub
      simp only [List.map_cons, applyCmds, List.foldl_cons]
      have hstep : applyCmd pin cur (Effect.disconnect r pin) =
          cur.filter (fun x => x ≠ r) := by simp [applyCmd]
      rw [hstep]
      refine ih (cur.filter (fun x => x ≠ r)) ?_
      intro x hx
      rw [List.mem_filter] at hx
      have hmem := hsub x hx.1
      have hne : x ≠ r := by simpa using hx.2
      simp only [List.mem_cons] at hmem
      exact hmem.resolve_left hne

/-- Claim C7: a successful connect emits a disconnect for every existing
remote of the destination pin followed by exactly one connect of the new
source, so replaying the buffered commands leaves the pin with exactly the
new incoming connection; and whenever the connect is not emitted (any
non-Ok outcome) no disconnect is emitted either. -/
theorem connect_c7 (fromKind toKind : NodeKind) (fromId : OutPinId)
    (toId : InPinId) (remotes : List OutPinId)
    (hok : (DemoViewer.connect fromKind toKind fromId toId remotes).1 =
      ConnectStatus.ok) :
    (DemoViewer.connect fromKind toKind fromId toId remotes).2 =
      remotes.map (fun r => Effect.disconnect r toId) ++
        [Effect.connect fromId toId] ∧
    applyCmds toId remotes
      (DemoViewer.connect fromKind toKind fromId toId remotes).2 =
      [fromId] ∧
    (∀ (fk tk : NodeKind) (fi : OutPinId) (ti : InPinId)
        (rs : List OutPinId),
      (DemoViewer.connect fk tk fi ti rs).1 = ConnectStatus.ok ∨
        (DemoViewer.connect fk tk fi ti rs).2 = []) := by
  have hcmds : (DemoViewer.connect fromKind toKind fromId toId remotes).2 =
      remotes.map (fun r => Effect.disconnect r toId) ++
        [Effect.connect fromId toId] := by
    unfold DemoViewer.connect at hok ⊢
    cases h : connectCheck fromKind toKind <;> simp [h] at hok ⊢
  refine ⟨hcmds, ?_, ?_⟩
  · rw [hcmds]
    unfold applyCmds
    rw [List.foldl_append]
    have hdrop := applyCmds_disconnect_all toId remotes remotes
      (fun x hx => hx)
    unfold applyCmds at hdrop
    rw [hdrop]
    simp [applyCmd]
  · intro fk tk fi ti rs
    unfold DemoViewer.connect
    cases h : connectCheck fk tk <;> simp

/-- Witness for connect_c7: an IntegerSource output wired onto an
ExpressionNode input pin that already has one incoming connection. -/
theorem connect_c7_witness :
    (DemoViewer.connect .Integer .Expr ⟨0, 0⟩ ⟨1, 0⟩ [⟨5, 0⟩]).2 =
      ([⟨5, 0⟩] : List OutPinId).map (fun r => Effect.disconnect r ⟨1, 0⟩) ++
        [Effect.connect ⟨0, 0⟩ ⟨1, 0⟩] ∧
    applyCmds ⟨1, 0⟩ [⟨5, 0⟩]
      (DemoViewer.connect .Integer .Expr ⟨0, 0⟩ ⟨1, 0⟩ [⟨5, 0⟩]).2 =
      [⟨0, 0⟩] ∧
    (∀ (fk tk : NodeKind) (fi : OutPinId) (ti : InPinId)
        (rs : List OutPinId),
      (DemoViewer.connect fk tk fi ti rs).1 = ConnectStatus.ok ∨
        (DemoViewer.connect fk tk fi ti rs).2 = []) :=
  connect_c7 .Integer .Expr ⟨0, 0⟩ ⟨1, 0⟩ [⟨5, 0⟩] rfl

theorem foldl_mapInsert_notmem (l : List (String × ℚ)) :
    ∀ (m : String → Option ℚ) (k : String),
      (∀ kv ∈ l, kv.1 ≠ k) → l.foldl mapInsert m k = m k := by
  induction l with
  | nil => intro m k h; rfl
  | cons kv rest ih =>
      intro m k h
      rw [List.foldl_cons, ih _ k (fun kv2 h2 => h kv2 (List.mem_cons_of_mem _ h2))]
      have hne : k ≠ kv.1 := fun he => h kv (List.mem_cons_self _ _) he.symm
      simp [mapInsert, hne]

theorem foldl_mapInsert_nodup (l : List (String × ℚ)) (k : String)
    (hnd : (l.map Prod.fst).Nodup) :
    ∀ m, l.foldl mapInsert m k =
      match assocFind l k with
      | some v => some v
      | none => m k := by
  induction l with
  | nil => intro m; rfl
  | cons kv rest ih =>
      intro m
      simp only [List.map_cons, List.nodup_cons] at hnd
      rw [List.foldl_cons]
      by_cases hk : kv.1 = k
      · subst hk
        have hrest : ∀ kv2 ∈ rest, kv2.1 ≠ kv.1 := by
          intro kv2 h2 he
          exact hnd.1 (he ▸ List.mem_map_of_mem _ h2)
        rw [foldl_mapInsert_notmem rest _ kv.1 hrest]
        simp [assocFind, mapInsert]
      · rw [ih hnd.2]
        have hne : k ≠ kv.1 := fun he => hk he.symm
        cases h : assocFind rest k <;> simp [h, assocFind, hk, mapInsert, hne]

theorem toMap_eq_assocFind (l : List (String × ℚ)) (k : String)
    (hnd : (l.map Prod.fst).Nodup) :
    toMap l k = assocFind l k := by
  unfold toMap
  rw [foldl_mapInsert_nodup l k hnd]
  cases assocFind l k <;> rfl

theorem assocFind_zip (b : List String) (n : String) : ∀ (v : List ℚ),
    assocFind (b.zip v) n =
      match position (fun x => x = n) b with
      | some i => v.get? i
      | none => none := by
  induction b with
  | nil =>
      intro v
      simp [assocFind, position]
  | cons x b2 ih =>
      intro v
      cases v with
      | nil =>
          cases hp : position (fun x => x = n) (x :: b2) <;> simp [assocFind]
      | cons y v2 =>
          have hzip : (x :: b2).zip (y :: v2) = (x, y) :: b2.zip v2 := rfl
          by_cases hx : x = n
          · simp [hzip, assocFind, position, hx]
          · have hassoc : assocFind ((x, y) :: b2.zip v2) n =
                assocFind (b2.zip v2) n := by simp [assocFind, hx]
            rw [hzip, hassoc, ih v2]
            have hpos : position (fun z => z = n) (x :: b2) =
                (position (fun z => z = n) b2).map (fun i => i + 1) := by
              simp [position, hx]
            rw [hpos]
            cases hp : position (fun z => z = n) b2 <;> simp

/-- The name-to-value map of show_content, looked up at a name, is the old
value at the position of that name in the old bindings when the old
bindings are duplicate-free and in lockstep with the old values. -/
theorem toMap_zip (b : List String) (v : List ℚ) (n : String)
    (hnd : b.Nodup) (hlen : b.length = v.length) :
    toMap (b.zip v) n =
      match position (fun x => x = n) b with
      | some i => v.get? i
      | none => none := by
  rw [toMap_eq_assocFind]
  · exact assocFind_zip b n v
  · rw [List.map_fst_zip b v (le_of_eq hlen)]
    exact hnd

/-- Claim C1: the interpreted output of one rebinding pass is, slot by old
slot, exactly what the spec prescribes: for old slot i named n, when n is
absent from the new bindings a disconnect of each existing connection of
the old pin, if any; when n sits at new index j different from i, for each
existing remote a disconnect from old slot i followed by a connect of the
same remote to new slot j of the same node; and when j equals i, nothing.
Since the pass ranges over old slots only, names present only in the new
bindings produce no command. The second and third conjuncts pin down the
meaning of position: none exactly on absence, and some j exactly at the
first index holding the name. -/
theorem rebind_c1 (nodeIdx : Nat) (oldB newB : List String)
    (remotes : Nat → List OutPinId) :
    ((rebindPass nodeIdx oldB newB remotes).flatMap (interpEffect remotes) =
      oldB.enum.flatMap (fun p =>
        match position (fun x => x = p.2) newB with
        | none => (remotes p.1).map
            (fun r => Effect.disconnect r ⟨nodeIdx, p.1⟩)
        | some j =>
            if j = p.1 then []
            else (remotes p.1).flatMap (fun r =>
              [Effect.disconnect r ⟨nodeIdx, p.1⟩,
                Effect.connect r ⟨nodeIdx, j⟩]))) ∧
    (∀ (n : String) (l : List String),
      position (fun x => x = n) l = none ↔ n ∉ l) ∧
    (∀ (n : String) (l : List String) (j : Nat),
      position (fun x => x = n) l = some j →
        l.get? j = some n ∧ ∀ k, k < j → l.get? k ≠ some n) := by
  refine ⟨?_, ?_, ?_⟩
  · unfold rebindPass
    rw [List.flatMap_assoc]
    refine List.flatMap_congr ?_
    intro p hp
    unfold rebindSlot
    cases hpos : position (fun x => x = p.2) newB with
    | none => simp [hpos, interpEffect]
    | some j =>
        by_cases hj : j = p.1
        · simp [hpos, hj]
        · simp only [hpos, hj, ne_eq, not_false_iff, if_true, if_false]
          rw [List.flatMap_assoc]
          refine List.flatMap_congr ?_
          intro r hr
          simp [interpEffect]
  · intro n l
    rw [position_eq_none]
    constructor
    · intro h hmem
      exact (by simpa using h n hmem)
    · intro h x hx
      simp only [decide_eq_true_eq]
      intro he
      exact h (he ▸ hx)
  · intro n l j h
    obtain ⟨⟨x, hx, hpx⟩, hmin⟩ := position_sound _ _ _ h
    simp only [decide_eq_true_eq] at hpx
    subst hpx
    refine ⟨hx, ?_⟩
    intro k hk hke
    exact hmin k hk x hke (by simp)

/-- Claim C5: after a successful re-parse the values array is rebuilt in
lockstep with the new binding list: it has the length of the new binding
list, and each new slot carries the old value stored at the position of the
same name in the old bindings when the name occurred there (the unique such
slot, the old bindings being duplicate-free) and 0 otherwise; every found
position lies inside the old values array. -/
theorem rebuild_c5 (oldB : List String) (oldV : List ℚ) (newB : List String)
    (hnd : oldB.Nodup) (hlen : oldB.length = oldV.length) :
    (rebuildValues oldB oldV newB).length = newB.length ∧
    rebuildValues oldB oldV newB = newB.map (fun name =>
      match position (fun x => x = name) oldB with
      | some i => oldV.getD i 0
      | none => 0) ∧
    (∀ name i, position (fun x => x = name) oldB = some i →
      i < oldV.length) := by
  refine ⟨by simp [rebuildValues], ?_, ?_⟩
  · unfold rebuildValues
    refine List.map_eq_map_iff.mpr ?_
    intro name hname
    rw [toMap_zip oldB oldV name hnd hlen]
    cases hp : position (fun x => x = name) oldB with
    | none => rfl
    | some i => rfl
  · intro name i h
    have := position_lt_length _ _ _ h
    omega

/-- Witness for rebuild_c5: old bindings x, y with values 3, 4 rebuilt
against the new bindings y, z. -/
theorem rebuild_c5_witness :
    (rebuildValues ["x", "y"] [3, 4] ["y", "z"]).length =
        (["y", "z"] : List String).length ∧
    rebuildValues ["x", "y"] [3, 4] ["y", "z"] =
      (["y", "z"] : List String).map (fun name =>
        match position (fun x => x = name) ["x", "y"] with
        | some i => ([3, 4] : List ℚ).getD i 0
        | none => 0) ∧
    (∀ name i, position (fun x => x = name) ["x", "y"] = some i →
      i < ([3, 4] : List ℚ).length) :=
  rebuild_c5 ["x", "y"] [3, 4] ["y", "z"] (by decide) (by decide)

/-- Claim C6: when parsing the edited text fails, the edit cycle changes
nothing but the raw text field: the previous AST, bindings and values are
retained and no mutation command is emitted. -/
theorem showContent_c6 (nodeIdx : Nat) (st : ExprNodeState)
    (newText : String) (newToks : Option (List Tok))
    (remotes : Nat → List OutPinId)
    (hfail : newToks.bind Expr.parse = none) :
    showContentExpr nodeIdx st newText newToks remotes =
      ({ st with text := newText }, []) := by
  unfold showContentExpr
  rw [hfail]

/-- Witness for showContent_c6: a node holding the parsed state of "x",
edited to a text whose lexing fails. -/
theorem showContent_c6_witness :
    showContentExpr 0 ⟨"x", ["x"], [2], Expr.Var "x"⟩ "x +" none
        (fun _ => []) =
      ({ (⟨"x", ["x"], [2], Expr.Var "x"⟩ : ExprNodeState) with
          text := "x +" }, []) :=
  showContent_c6 0 ⟨"x", ["x"], [2], Expr.Var "x"⟩ "x +" none
    (fun _ => []) rfl

theorem extend_bindings_nil_nodup (e : Expr) :
    (e.extend_bindings []).Nodup := by
  rw [extend_bindings_eq_foldl]
  exact foldl_bindStep_nodup _ [] List.nodup_nil

theorem rebindPass_self (nodeIdx : Nat) (b : List String)
    (remotes : Nat → List OutPinId) (hnd : b.Nodup) :
    rebindPass nodeIdx b b remotes = [] := by
  unfold rebindPass
  rw [List.bind_eq_nil]
  intro p hp
  obtain ⟨i, name⟩ := p
  have hget : b.get? i = some name := List.mk_mem_enum_iff_get?.mp hp
  obtain ⟨hlt, hbi⟩ := List.getElem?_eq_some.mp
    (by rw [← List.get?_eq_getElem?]; exact hget)
  unfold rebindSlot
  have hpos : position (fun x => x = name) b = some i := by
    have hps := position_get_self b hnd i hlt
    rwa [show b.get ⟨i, hlt⟩ = name from hbi] at hps
  rw [hpos]
  simp

theorem rebuildValues_self (b : List String) (v : List ℚ) (hnd : b.Nodup)
    (hlen : b.length = v.length) : rebuildValues b v b = v := by
  refine List.ext_getElem (by simp [rebuildValues, hlen]) ?_
  intro n h1 h2
  unfold rebuildValues
  rw [List.getElem_map]
  have hb : n < b.length := by simpa [rebuildValues] using h1
  rw [toMap_zip b v _ hnd hlen]
  have hpos : position (fun x => x = b[n]) b = some n := by
    have hps := position_get_self b hnd n hb
    rwa [List.get_eq_getElem] at hps
  rw [hpos]
  show (v.get? n).getD 0 = v[n]
  rw [List.get?_eq_getElem?, List.getElem?_eq_getElem h2]
  rfl

/-- Claim C8: the edit cycle is idempotent: once a text has been parsed
successfully, running the parse-and-rebind pass again on the identical text
(hence the identical token stream) returns the stored state unchanged,
bindings and values included, and emits zero mutation commands, whatever
the remotes of the second pass are. -/
theorem showContent_c8 (nodeIdx : Nat) (st : ExprNodeState)
    (newText : String) (newToks : Option (List Tok))
    (remotes remotes2 : Nat → List OutPinId) (e : Expr)
    (hparse : newToks.bind Expr.parse = some e) :
    showContentExpr nodeIdx
        (showContentExpr nodeIdx st newText newToks remotes).1
        newText newToks remotes2 =
      ((showContentExpr nodeIdx st newText newToks remotes).1, []) := by
  have hnd : (e.extend_bindings []).Nodup := extend_bindings_nil_nodup e
  have hinner : showContentExpr nodeIdx st newText newToks remotes =
      ({ st with
          text := newText
          expr := e
          bindings := e.extend_bindings []
          values := rebuildValues st.bindings st.values
            (e.extend_bindings []) },
        rebindPass nodeIdx st.bindings (e.extend_bindings []) remotes) := by
    unfold showContentExpr
    rw [hparse]
  rw [hinner]
  unfold showContentExpr
  rw [hparse]
  have hvlen : (e.extend_bindings []).length =
      (rebuildValues st.bindings st.values (e.extend_bindings [])).length :=
    by simp [rebuildValues]
  simp only [rebindPass_self nodeIdx (e.extend_bindings []) remotes2 hnd,
    rebuildValues_self (e.extend_bindings [])
      (rebuildValues st.bindings st.values (e.extend_bindings [])) hnd hvlen]

/-- Witness for showContent_c8: the empty node state edited to the text
"x + y". -/
theorem showContent_c8_witness :
    showContentExpr 0
        (showContentExpr 0 ⟨"0", [], [], Expr.Val 0⟩ "x + y"
          (some [Tok.ident "x", Tok.plus, Tok.ident "y"]) (fun _ => [])).1
        "x + y" (some [Tok.ident "x", Tok.plus, Tok.ident "y"])
        (fun _ => [⟨7, 0⟩]) =
      ((showContentExpr 0 ⟨"0", [], [], Expr.Val 0⟩ "x + y"
          (some [Tok.ident "x", Tok.plus, Tok.ident "y"]) (fun _ => [])).1,
        []) :=
  showContent_c8 0 ⟨"0", [], [], Expr.Val 0⟩ "x + y"
    (some [Tok.ident "x", Tok.plus, Tok.ident "y"]) (fun _ => [])
    (fun _ => [⟨7, 0⟩]) (Expr.BinOp (.Var "x") .add (.Var "y"))
    (by simp [Expr.parse, Expr.parse_cont, Expr.parse_binop,
      Expr.parse_binop_cont, opOfTok, Option.bind])

/-- Claim C10, the frame property of one rebinding pass for node N: every
interpreted command addresses an input pin of node N itself, disconnects
address old slots and connects address new slots; and every emitted connect
reuses exactly the remote output pin of a disconnect the same pass emits
from an old slot of N, so no other node and no source endpoint is ever
touched. -/
theorem rebind_c10 (nodeIdx : Nat) (oldB newB : List String)
    (remotes : Nat → List OutPinId) :
    ∀ cmd ∈ (rebindPass nodeIdx oldB newB remotes).flatMap
        (interpEffect remotes),
      (∀ (r : OutPinId) (p : InPinId), cmd = Effect.disconnect r p →
        p.node = nodeIdx ∧ p.input < oldB.length ∧ r ∈ remotes p.input) ∧
      (∀ (r : OutPinId) (p : InPinId), cmd = Effect.connect r p →
        p.node = nodeIdx ∧ p.input < newB.length ∧
        ∃ i, i < oldB.length ∧ r ∈ remotes i ∧
          Effect.disconnect r ⟨nodeIdx, i⟩ ∈
            (rebindPass nodeIdx oldB newB remotes).flatMap
              (interpEffect remotes)) := by
  intro cmd hcmd
  rw [List.mem_flatMap] at hcmd
  obtain ⟨eff, heff, hcmdin⟩ := hcmd
  have heff2 := heff
  unfold rebindPass at heff2
  rw [List.mem_flatMap] at heff2
  obtain ⟨p0, hp0, heffin⟩ := heff2
  obtain ⟨i, name⟩ := p0
  have hget : oldB.get? i = some name := List.mk_mem_enum_iff_get?.mp hp0
  obtain ⟨hlt, hbi⟩ := List.getElem?_eq_some.mp
    (by rw [← List.get?_eq_getElem?]; exact hget)
  unfold rebindSlot at heffin
  cases hpos : position (fun x => x = name) newB with
  | none =>
      rw [hpos] at heffin
      simp only [List.mem_singleton] at heffin
      subst heffin
      simp only [interpEffect, List.mem_map] at hcmdin
      obtain ⟨r0, hr0, hcmde⟩ := hcmdin
      constructor
      · intro r p hrp
        rw [← hcmde] at hrp
        cases hrp
        exact ⟨rfl, hlt, hr0⟩
      · intro r p hrp
        rw [← hcmde] at hrp
        simp at hrp
  | some j =>
      rw [hpos] at heffin
      have hjlt : j < newB.length := position_lt_length _ _ _ hpos
      by_cases hj : j = i
      · exfalso
        revert heffin
        simp [hj]
      · replace heffin : eff ∈ (remotes i).flatMap (fun r =>
            [Effect.disconnect r ⟨nodeIdx, i⟩,
              Effect.connect r ⟨nodeIdx, j⟩]) := by
          simpa [hj] using heffin
        rw [List.mem_flatMap] at heffin
        obtain ⟨r0, hr0, heffin2⟩ := heffin
        have hdis_mem : Effect.disconnect r0 ⟨nodeIdx, i⟩ ∈
            (rebindPass nodeIdx oldB newB remotes).flatMap
              (interpEffect remotes) := by
          rw [List.mem_flatMap]
          refine ⟨Effect.disconnect r0 ⟨nodeIdx, i⟩, ?_, by
            simp [interpEffect]⟩
          unfold rebindPass
          rw [List.mem_flatMap]
          refine ⟨(i, name), hp0, ?_⟩
          unfold rebindSlot
          rw [hpos]
          show Effect.disconnect r0 ⟨nodeIdx, i⟩ ∈
            (if j ≠ i then
              (remotes i).flatMap (fun r =>
                [Effect.disconnect r ⟨nodeIdx, i⟩,
                  Effect.connect r ⟨nodeIdx, j⟩])
            else [])
          rw [if_pos hj]
          rw [List.mem_flatMap]
          exact ⟨r0, hr0, by simp⟩
        rcases (by simpa using heffin2 :
            eff = Effect.disconnect r0 ⟨nodeIdx, i⟩ ∨
              eff = Effect.connect r0 ⟨nodeIdx, j⟩) with heq | heq
        · subst heq
          simp only [interpEffect, List.mem_singleton] at hcmdin
          subst hcmdin
          constructor
          · intro r p hrp
            cases hrp
            exact ⟨rfl, hlt, hr0⟩
          · intro r p hrp
            simp at hrp
        · subst heq
          simp only [interpEffect, List.mem_singleton] at hcmdin
          subst hcmdin
          constructor
          · intro r p hrp
            simp at hrp
          · intro r p hrp
            cases hrp
            exact ⟨rfl, hjlt, i, hlt, hr0, hdis_mem⟩

/-- Witness for rebind_c10: node 1 with old binding x moving to index 1 of
the new bindings y, x, the old slot having one remote; the connect command
of the pass satisfies the frame property. -/
theorem rebind_c10_witness :
    (∀ (r : OutPinId) (p : InPinId),
      Effect.connect ⟨5, 0⟩ ⟨1, 1⟩ = Effect.disconnect r p →
        p.node = 1 ∧ p.input < (["x"] : List String).length ∧
          r ∈ (fun _ => [(⟨5, 0⟩ : OutPinId)]) p.input) ∧
    (∀ (r : OutPinId) (p : InPinId),
      Effect.connect ⟨5, 0⟩ ⟨1, 1⟩ = Effect.connect r p →
        p.node = 1 ∧ p.input < (["y", "x"] : List String).length ∧
        ∃ i, i < (["x"] : List String).length ∧
          r ∈ (fun _ => [(⟨5, 0⟩ : OutPinId)]) i ∧
          Effect.disconnect r ⟨1, i⟩ ∈
            (rebindPass 1 ["x"] ["y", "x"]
              (fun _ => [(⟨5, 0⟩ : OutPinId)])).flatMap
              (interpEffect (fun _ => [(⟨5, 0⟩ : OutPinId)]))) :=
  rebind_c10 1 ["x"] ["y", "x"] (fun _ => [⟨5, 0⟩])
    (Effect.connect ⟨5, 0⟩ ⟨1, 1⟩) (by decide)

end EguiSnarlDemo
